import Mathlib

/-!
# The mdBook sidebar script `toc.js`

A shallow embedding of the custom element `MDBookSidebarScrollbox`:

* JavaScript strings are Lean strings; the string methods the script calls are
  defined on the underlying character lists.
* The regular expression literal of the script is a value of a small regular
  expression type with a backtracking matcher.
* The DOM fragment the script injects is a flat list of `li` elements (the HTML
  parser closes an open `li` when the next `li` starts), each carrying its class
  list and, for a chapter, its `a` element.
* `sessionStorage` is an association list of key and value strings.
* What the browser does on `this.scrollTop = v` and on `scrollIntoView` is
  recorded as the effect requested, not simulated.
* The two event handlers, the click listener of the sidebar and `toggleSection`, are
  functions of their own; their registration is not part of the state.
-/

namespace Toc

/-! ## Strings -/

/-- JavaScript `s.startsWith(pre)`. -/
def startsWith (s pre : String) : Bool := pre.data.isPrefixOf s.data

/-- JavaScript `s.endsWith(suf)`. -/
def endsWith (s suf : String) : Bool := suf.data.isSuffixOf s.data

/-- JavaScript `s.split("#")[0]`: the part of `s` before the first `#`. -/
def splitHashFirst (s : String) : String := ⟨s.data.takeWhile (fun c => c != '#')⟩

/-- JavaScript truthiness of a string value: every string but the empty one. -/
def truthy (s : String) : Bool := s != ""

/-- JavaScript conversion of a scroll offset (whole pixels) to a string, as done by
`sessionStorage.setItem` on its value argument. -/
def numberToString (n : Nat) : String := Nat.repr n

/-! ## Regular expressions -/

/-- The fragment of regular expression syntax that the script uses. -/
inductive RegExp where
  | char (c : Char)
  | cls (ranges : List (Char × Char))
  | seq (a b : RegExp)
  | opt (a : RegExp)
  | plus (a : RegExp)

/-- Membership of a character in a character class given by its ranges. -/
def inClass (ranges : List (Char × Char)) (c : Char) : Bool :=
  ranges.any (fun r => decide (r.1 ≤ c) && decide (c ≤ r.2))

/-- Remainders left by one or more greedy iterations of `step`, longest match first.
An iteration that consumes nothing ends the repetition. -/
def plusEnds (step : List Char → List (List Char)) : Nat → List Char → List (List Char)
  | 0, _ => []
  | n + 1, s =>
    (step s).flatMap (fun t => if t.length < s.length then plusEnds step n t ++ [t] else [t])

/-- All remainders that a match of the expression at the start of `s` can leave, in the
order a backtracking matcher tries them. -/
def RegExp.ends : RegExp → List Char → List (List Char)
  | .char c, s =>
    match s with
    | x :: xs => if x = c then [xs] else []
    | [] => []
  | .cls rs, s =>
    match s with
    | x :: xs => if inClass rs x then [xs] else []
    | [] => []
  | .seq a b, s => (RegExp.ends a s).flatMap (RegExp.ends b)
  | .opt a, s => RegExp.ends a s ++ [s]
  | .plus a, s => plusEnds (RegExp.ends a) (s.length + 1) s

/-- JavaScript `/^re/.test(s)`: some match of `re` starts at index 0. -/
def RegExp.test (re : RegExp) (s : String) : Bool := !(re.ends s.data).isEmpty

/-- The class `[a-z+]`. -/
def schemeClass : List (Char × Char) := [('a', 'z'), ('+', '+')]

/-- The literal `/^(?:[a-z+]+:)?\/\//` of the script. -/
def absoluteUrlPattern : RegExp :=
  .seq (.opt (.seq (.plus (.cls schemeClass)) (.char ':'))) (.seq (.char '/') (.char '/'))

/-! ## Class lists (`DOMTokenList`) -/

/-- DOM `classList.contains(t)`. -/
def contains (cl : List String) (t : String) : Bool := decide (t ∈ cl)

/-- DOM `classList.add(t)`: the token is appended unless it is there already. -/
def add (cl : List String) (t : String) : List String :=
  if contains cl t then cl else cl ++ [t]

/-- DOM `classList.toggle(t)`: the token is removed if present, appended if not. -/
def toggle (cl : List String) (t : String) : List String :=
  if contains cl t then cl.filter (fun c => c != t) else cl ++ [t]

/-! ## The DOM of the sidebar -/

/-- An `a` element: its `href` content attribute (`getAttribute("href")`, absent is
`none`) and its class list. -/
structure Anchor where
  href : Option String
  classList : List String
  deriving DecidableEq

/-- An `li` child of the injected `ol`: its class list and the `a` element it holds. -/
structure Li where
  classList : List String
  link : Option Anchor
  deriving DecidableEq

/-- An element above the list items on the `parentElement` chain: its tag name and the
class list of its previous element sibling, when it has one. -/
structure Outer where
  tagName : String
  previousElementSibling : Option (List String)
  deriving DecidableEq

/-- The mutable part of the document the script touches: the children of the `ol`, and
the `parentElement` chain that starts at the `ol`. -/
structure Sidebar where
  items : List Li
  chain : List Outer
  deriving DecidableEq

/-- A handle on an element of the document. -/
abbrev ElemRef := Nat

/-- What the script reads from its environment. -/
structure Page where
  /-- The value of `document.location.href`. -/
  location : String
  /-- The global `path_to_root`. -/
  path_to_root : String
  /-- The URL the `href` property of a link reports for a given `href` attribute. -/
  resolve : String → String
  /-- Previous element sibling of the custom element. -/
  hostPreviousSibling : Option (List String)
  /-- The `parentElement` chain above the custom element. -/
  ancestors : List Outer
  /-- The answer of `document.querySelector('#sidebar .active')` for a given sidebar. -/
  querySelector : Sidebar → Option ElemRef

/-- The element `<li class="chapter-item expanded affix ">`. -/
def affix : Li := { classList := ["chapter-item", "expanded", "affix"], link := none }

/-- The element `<li class="part-title">`. -/
def partTitle : Li := { classList := ["part-title"], link := none }

/-- The element `<li class="chapter-item expanded "><a href="...">`. -/
def chapter (href : String) : Li :=
  { classList := ["chapter-item", "expanded"], link := some { href := some href, classList := [] } }

/-- The children of the `ol` that `this.innerHTML = ...` creates. -/
def injectedList : List Li :=
  [ affix, partTitle,
    chapter "introduction/cover.html",
    chapter "introduction/colophon.html",
    chapter "introduction/introduction.html",
    chapter "introduction/from_xml_to_json_to_cbor.html",
    chapter "introduction/cbor_vs_the_other_guys.html",
    affix, partTitle,
    chapter "part_1/practical_introduction_to_cbor.html",
    chapter "part_1/cbor_tags.html",
    chapter "part_1/indefinite_length_items.html",
    chapter "part_1/cbor_sequences.html",
    chapter "part_1/cbor_schemas_with_cddl.html",
    affix, partTitle,
    chapter "part_2/determinism.html",
    chapter "part_2/cbor_cde_dcbor.html",
    chapter "part_2/using_dcbor.html",
    chapter "part_2/dcbor_tags.html",
    affix, partTitle,
    chapter "part_3/introducing_gordian_envelope.html",
    chapter "part_3/envelope_semantics_and_structure.html",
    chapter "part_3/envelope_encoding_and_processing.html",
    chapter "part_3/practical_applications_and_patterns.html",
    chapter "part_3/tooling_and_libraries.html",
    chapter "part_3/advanced_topics.html",
    affix, partTitle,
    chapter "appendices/cbor_header_bytes.html" ]

/-- Apply `f` to the element at position `k`. -/
def modifyAt {α : Type} (f : α → α) : Nat → List α → List α
  | _, [] => []
  | 0, x :: xs => f x :: xs
  | n + 1, x :: xs => x :: modifyAt f n xs

/-- The result of `this.querySelectorAll("a")`: the positions of the items holding a link, in document
order. -/
def links (items : List Li) : List Nat :=
  (List.range items.length).filter
    (fun k => match items[k]? with
      | some li => li.link.isSome
      | none => false)

/-! ## `connectedCallback` -/

/-- The value of `current_page` after lines 13 to 16. -/
def current_page (location : String) : String :=
  let current_page := splitHashFirst location
  if endsWith current_page "/" then current_page ++ "index.html" else current_page

/-- Lines 21 to 24: the `href` attribute is replaced by `path_to_root + href` when it is
truthy, does not start with `#` and does not match the pattern. -/
def rewriteHref (path_to_root : String) (link : Anchor) : Anchor :=
  match link.href with
  | some href =>
    if truthy href && !startsWith href "#" && !absoluteUrlPattern.test href then
      { link with href := some (path_to_root ++ href) }
    else link
  | none => link

/-- The `href` property of a link: the resolved URL of its attribute, the empty string
without one. -/
def hrefProperty (resolve : String → String) (link : Anchor) : String :=
  match link.href with
  | some h => resolve h
  | none => ""

/-- The test of line 26. -/
def isCurrent (pg : Page) (cp : String) (i : Nat) (link : Anchor) : Bool :=
  hrefProperty pg.resolve link == cp ||
    (i == 0 && pg.path_to_root == "" && endsWith cp "/index.html")

/-- The statement `if (e.classList.contains("chapter-item")) e.classList.add("expanded")`. -/
def expandChapter (cl : List String) : List String :=
  if contains cl "chapter-item" then add cl "expanded" else cl

/-- One turn of the `while (parent)` loop at an element above the list items. -/
def revealAncestor (o : Outer) : Outer :=
  if o.tagName == "LI" then
    match o.previousElementSibling with
    | some cl => { o with previousElementSibling := some (expandChapter cl) }
    | none => o
  else o

/-- An element that the variable `parent` of the `while` loop can hold: the item at
position `k` of the list, or the element at position `j` of the `parentElement` chain
above the items. -/
inductive Node where
  | item (k : Nat)
  | outer (j : Nat)
  deriving DecidableEq

/-- The property `parentElement` of a node, `none` for JavaScript `null`: an item has the
`ol` for parent, the first element of the chain; an element of the chain has the next
one, the last has none. -/
def parentElement (sb : Sidebar) : Node → Option Node
  | .item _ => if 0 < sb.chain.length then some (.outer 0) else none
  | .outer j => if j + 1 < sb.chain.length then some (.outer (j + 1)) else none

/-- Lines 33 to 37, the body of the `while` loop at `parent`. An item is an `LI`, and its
previous element sibling is the item before it, if any. -/
def whileBody (sb : Sidebar) : Node → Sidebar
  | .item k =>
    if k = 0 then sb
    else
      { sb with
        items := modifyAt (fun p => { p with classList := expandChapter p.classList }) (k - 1)
          sb.items }
  | .outer j => { sb with chain := modifyAt revealAncestor j sb.chain }

/-- Lines 32 to 39: `while (parent) { ...; parent = parent.parentElement; }`, run for at
most `fuel` turns; `none` when the turns are used up before `parent` is `null`. -/
def whileParent : Nat → Option Node → Sidebar → Option Sidebar
  | _, none, sb => some sb
  | 0, some _, _ => none
  | fuel + 1, some parent, sb =>
    whileParent fuel (parentElement (whileBody sb parent) parent) (whileBody sb parent)

/-- The body of the `for` loop for the link of index `i`, held by the item at position
`k`. The `while` loop is given one turn for the item and one for each element of the
chain above it. -/
def visitLink (pg : Page) (cp : String) (sb : Sidebar) (ik : Nat × Nat) : Sidebar :=
  match sb.items[ik.2]? with
  | none => sb
  | some li =>
    match li.link with
    | none => sb
    | some link0 =>
      let link := rewriteHref pg.path_to_root link0
      if isCurrent pg cp ik.1 link then
        let link := { link with classList := add link.classList "active" }
        -- parent = link.parentElement, the item itself
        let sb1 : Sidebar :=
          { sb with
            items := modifyAt
              (fun _ => { classList := expandChapter li.classList, link := some link }) ik.2
              sb.items }
        (whileParent (sb1.chain.length + 1) (some (.item ik.2)) sb1).getD sb1
      else
        { sb with items := modifyAt (fun _ => { li with link := some link }) ik.2 sb.items }

/-- Lines 17 to 41: the `for` loop over the links. -/
def markActive (pg : Page) (cp : String) (sb : Sidebar) : Sidebar :=
  (links sb.items).enum.foldl (visitLink pg cp) sb

/-! ## `sessionStorage` -/

/-- The content of a `Storage` object. -/
abbrev Storage := List (String × String)

/-- Storage `getItem(key)`, `none` for JavaScript `null`. -/
def getItem (st : Storage) (key : String) : Option String :=
  (st.find? (fun e => e.1 == key)).map (fun e => e.2)

/-- Storage `removeItem(key)`. -/
def removeItem (st : Storage) (key : String) : Storage :=
  st.filter (fun e => e.1 != key)

/-- Storage `setItem(key, value)`. -/
def setItem (st : Storage) (key value : String) : Storage :=
  if st.any (fun e => e.1 == key) then
    st.map (fun e => if e.1 == key then (key, value) else e)
  else st ++ [(key, value)]

/-- The listener of lines 43 to 47, for a click on an element of the given tag name while
the sidebar is scrolled to `scrollTop`. -/
def clickListener (tagName : String) (scrollTop : Nat) (sessionStorage : Storage) : Storage :=
  if tagName == "A" then setItem sessionStorage "sidebar-scroll" (numberToString scrollTop)
  else sessionStorage

/-- What `connectedCallback` leaves behind. -/
structure Outcome where
  sidebar : Sidebar
  sessionStorage : Storage
  /-- The value assigned to `this.scrollTop`, if the assignment ran. -/
  scrollTop : Option String
  /-- The target and the `block` option of the `scrollIntoView` call, if it ran. -/
  scrollIntoView : Option (ElemRef × String)

/-- The document right after `this.innerHTML = ...`. -/
def injected (pg : Page) : Sidebar :=
  { items := injectedList,
    chain := { tagName := "OL", previousElementSibling := none } ::
      { tagName := "MDBOOK-SIDEBAR-SCROLLBOX", previousElementSibling := pg.hostPreviousSibling } ::
      pg.ancestors }

/-- The method `connectedCallback` of `MDBookSidebarScrollbox`. -/
def connectedCallback (pg : Page) (sessionStorage : Storage) : Outcome :=
  let sb := markActive pg (current_page pg.location) (injected pg)
  let sidebarScrollTop := getItem sessionStorage "sidebar-scroll"
  let sessionStorage := removeItem sessionStorage "sidebar-scroll"
  let otherwise : Outcome :=
    { sidebar := sb, sessionStorage := sessionStorage, scrollTop := none,
      scrollIntoView := (pg.querySelector sb).map (fun activeSection => (activeSection, "center")) }
  match sidebarScrollTop with
  | some v =>
    if truthy v then
      { sidebar := sb, sessionStorage := sessionStorage, scrollTop := some v,
        scrollIntoView := none }
    else otherwise
  | none => otherwise

/-- The function `toggleSection` for a toggle whose `parentElement` has the given class
list; without a parent element the property access throws. -/
def toggleSection (parentElement : Option (List String)) : Except String (List String) :=
  match parentElement with
  | some classList => .ok (toggle classList "expanded")
  | none => .error "TypeError"

/-- The `a` elements of a sidebar in document order, as `querySelectorAll("a")` lists
them. -/
def anchors (sb : Sidebar) : List Anchor := sb.items.filterMap (fun li => li.link)

/-- What the loop body does to the link of index `i` itself: lines 21 to 27. -/
def processLink (pg : Page) (cp : String) (i : Nat) (link0 : Anchor) : Anchor :=
  let link := rewriteHref pg.path_to_root link0
  if isCurrent pg cp i link then { link with classList := add link.classList "active" }
  else link

/-! ## The wording of the specification -/

/-- The character set `[a-z+]`, spelled out. -/
def SchemeChar (c : Char) : Prop := ('a' ≤ c ∧ c ≤ 'z') ∨ c = '+'

/-- An href that "begins with `//` or with a non-empty run of characters from `[a-z+]`
followed by `://`". -/
def BeginsAbsolute (h : String) : Prop :=
  (∃ rest, h.data = '/' :: '/' :: rest) ∨
  ∃ run rest, run ≠ [] ∧ (∀ c ∈ run, SchemeChar c) ∧ h.data = run ++ ':' :: '/' :: '/' :: rest

/-- An href that is "non-empty, does not start with `#`" and does not begin as an
absolute URL. -/
def Rewritten (h : String) : Prop :=
  h ≠ "" ∧ (∀ rest, h.data ≠ '#' :: rest) ∧ ¬ BeginsAbsolute h

/-- No class is removed from a link, and its `href` attribute stays present. -/
def AnchorLe (a b : Anchor) : Prop :=
  a.classList ⊆ b.classList ∧ (a.href.isSome → b.href.isSome)

/-- No class is removed from an item nor from the link it holds. -/
def LiLe (a b : Li) : Prop :=
  a.classList ⊆ b.classList ∧
    match a.link, b.link with
    | some x, some y => AnchorLe x y
    | none, none => True
    | _, _ => False

/-- No class is removed from the previous sibling of an element of the chain. -/
def OuterLe (a b : Outer) : Prop :=
  a.tagName = b.tagName ∧
    match a.previousElementSibling, b.previousElementSibling with
    | some x, some y => x ⊆ y
    | none, none => True
    | _, _ => False

/-- Apply `f` to the elements from position `j` on. -/
def mapFrom {α : Type} (f : α → α) : Nat → List α → List α
  | 0, l => l.map f
  | _ + 1, [] => []
  | j + 1, x :: xs => x :: mapFrom f j xs

/-- The sidebar once the `while` loop started at the item of position `k` has ended. -/
def reveal (k : Nat) (sb : Sidebar) : Sidebar :=
  { items :=
      if k = 0 then sb.items
      else modifyAt (fun p => { p with classList := expandChapter p.classList }) (k - 1) sb.items,
    chain := sb.chain.map revealAncestor }

/-- A class list on which `expanded` goes with `chapter-item`. -/
def Revealed (cl : List String) : Prop := "chapter-item" ∈ cl → "expanded" ∈ cl

/-- No link of the sidebar carries the class `active`. -/
def NoneActive (sb : Sidebar) : Prop :=
  ∀ a ∈ anchors sb, "active" ∉ a.classList

/-- Around every link that carries `active`, `expanded` goes with `chapter-item`: on the
item that holds the link, on the item before it, and on the previous sibling of every
`LI` of the `parentElement` chain. -/
def ActiveRevealed (sb : Sidebar) : Prop :=
  ∀ (k : Nat) (li : Li) (a : Anchor), sb.items[k]? = some li → li.link = some a →
    "active" ∈ a.classList →
      Revealed li.classList ∧
      (∀ p : Li, 1 ≤ k → sb.items[k - 1]? = some p → Revealed p.classList) ∧
      (∀ o ∈ sb.chain, o.tagName = "LI" →
        ∀ cl, o.previousElementSibling = some cl → Revealed cl)

/-- The items `l2` are the items `l1`, position by position, with no class removed. -/
def ItemsLe (l1 l2 : List Li) : Prop :=
  l2.length = l1.length ∧
    ∀ (k : Nat) (li : Li), l1[k]? = some li → ∃ li2 : Li, l2[k]? = some li2 ∧ LiLe li li2

/-- The chain `l2` is the chain `l1`, position by position, with no class removed. -/
def ChainLe (l1 l2 : List Outer) : Prop :=
  l2.length = l1.length ∧
    ∀ (k : Nat) (o : Outer), l1[k]? = some o → ∃ o2 : Outer, l2[k]? = some o2 ∧ OuterLe o o2

/-- A sidebar for the examples, with a nested list as mdBook writes it for the chapters
of a section: the `ol` sits in an `li` whose previous sibling is the collapsed
`chapter-item` of the section, and no item carries `expanded` yet. -/
def nestedSidebar : Sidebar :=
  { items :=
      [ { classList := ["chapter-item"], link := some { href := some "first.html", classList := [] } },
        { classList := ["chapter-item"], link := some { href := some "second.html", classList := [] } } ],
    chain :=
      [ { tagName := "OL", previousElementSibling := none },
        { tagName := "LI", previousElementSibling := some ["chapter-item"] },
        { tagName := "OL", previousElementSibling := none } ] }

/-- A page for the examples: served from `https://example.org/book/`. -/
def examplePage (location path_to_root : String) : Page :=
  { location := location, path_to_root := path_to_root,
    resolve := fun h => "https://example.org/book/" ++ h,
    hostPreviousSibling := none,
    ancestors := [{ tagName := "NAV", previousElementSibling := none }],
    querySelector := fun sb =>
      (links sb.items).find?
        (fun k => match sb.items[k]? with
          | some li => (match li.link with
            | some a => contains a.classList "active"
            | none => false)
          | none => false) }

/-! ## Storage lemmas -/

theorem getItem_nil (k : String) : getItem [] k = none := rfl

theorem getItem_cons (e : String × String) (es : Storage) (k : String) :
    getItem (e :: es) k = if e.1 = k then some e.2 else getItem es k := by
  unfold getItem
  rw [List.find?_cons]
  cases hb : (e.1 == k)
  · have h : ¬ e.1 = k := by simpa using hb
    rw [if_neg h]
  · have h : e.1 = k := by simpa using hb
    rw [if_pos h]
    rfl

theorem removeItem_cons (e : String × String) (es : Storage) (key : String) :
    removeItem (e :: es) key = if e.1 = key then removeItem es key else e :: removeItem es key := by
  unfold removeItem
  rw [List.filter_cons]
  by_cases h : e.1 = key
  · have hb : (e.1 != key) = false := by simp [h]
    simp [hb, h]
  · have hb : (e.1 != key) = true := by simp [h]
    simp [hb, h]

theorem getItem_removeItem (st : Storage) (key k : String) :
    getItem (removeItem st key) k = if k = key then none else getItem st k := by
  induction st with
  | nil => simp [removeItem, getItem_nil]
  | cons e es ih =>
    rw [removeItem_cons, getItem_cons]
    by_cases h : e.1 = key
    · rw [if_pos h, ih]
      by_cases hk : k = key
      · simp [hk]
      · have : ¬ e.1 = k := fun h3 => hk (h3.symm.trans h)
        simp [hk, this]
    · rw [if_neg h, getItem_cons, ih]
      by_cases hk : k = key
      · have : ¬ e.1 = k := fun h3 => h (h3.trans hk)
        simp [hk, this, h]
      · simp [hk]

theorem getItem_map_set (st : Storage) (key value k : String) :
    getItem (st.map (fun e => if e.1 == key then (key, value) else e)) k =
      if k = key then (if st.any (fun e => e.1 == key) then some value else none)
      else getItem st k := by
  induction st with
  | nil => simp [getItem_nil]
  | cons e es ih =>
    rw [List.map_cons, getItem_cons, ih, getItem_cons, List.any_cons]
    by_cases h : e.1 = key
    · have hb : (e.1 == key) = true := by simpa using h
      by_cases hk : k = key
      · simp [hb, hk]
      · have h1 : ¬ key = k := fun h3 => hk h3.symm
        have h2 : ¬ e.1 = k := fun h3 => hk (h3.symm.trans h)
        simp [hb, hk, h1, h2]
    · have hb : (e.1 == key) = false := by simpa using h
      by_cases hk : k = key
      · have h2 : ¬ e.1 = k := fun h3 => h (h3.trans hk)
        rw [hb, Bool.false_or]
        simp [h2]
      · simp [hb, hk]

theorem getItem_append_absent (st : Storage) (key value k : String)
    (h : st.any (fun e => e.1 == key) = false) :
    getItem (st ++ [(key, value)]) k = if k = key then some value else getItem st k := by
  induction st with
  | nil =>
    rw [List.nil_append, getItem_cons, getItem_nil]
    by_cases hk : k = key
    · simp [hk]
    · have : ¬ key = k := fun h => hk h.symm
      simp [hk, this]
  | cons e es ih =>
    rw [List.any_cons, Bool.or_eq_false_iff] at h
    rw [List.cons_append, getItem_cons, ih h.2, getItem_cons]
    have h1 : ¬ e.1 = key := by simpa using h.1
    by_cases hk : k = key
    · have : ¬ e.1 = k := fun h3 => h1 (h3.trans hk)
      simp [hk, this, h1]
    · simp [hk]

theorem getItem_setItem (st : Storage) (key value k : String) :
    getItem (setItem st key value) k = if k = key then some value else getItem st k := by
  unfold setItem
  split
  · next h => rw [getItem_map_set, h]; simp
  · next h =>
    rw [getItem_append_absent st key value k ((Bool.not_eq_true _).mp h)]

theorem toDigitsCore_ne_nil (b fuel n : Nat) (ds : List Char) (h : ds ≠ []) :
    Nat.toDigitsCore b fuel n ds ≠ [] := by
  induction fuel generalizing n ds with
  | zero => simpa [Nat.toDigitsCore] using h
  | succ f ih =>
    unfold Nat.toDigitsCore
    simp only
    split
    · simp
    · exact ih _ _ (by simp)

theorem numberToString_ne_empty (n : Nat) : numberToString n ≠ "" := by
  unfold numberToString Nat.repr Nat.toDigits
  intro h
  have h2 := congrArg String.data h
  simp only [List.asString] at h2
  have : Nat.toDigitsCore 10 (n + 1) n [] ≠ [] := by
    unfold Nat.toDigitsCore
    simp only
    split
    · simp
    · exact toDigitsCore_ne_nil _ _ _ _ (by simp)
  exact this h2

theorem truthy_numberToString (n : Nat) : truthy (numberToString n) = true := by
  simp [truthy, numberToString_ne_empty]

/-! ## Class list lemmas -/

theorem mem_add (cl : List String) (t c : String) : c ∈ add cl t ↔ c ∈ cl ∨ c = t := by
  unfold add contains
  by_cases h : t ∈ cl
  · simp only [h, decide_True, if_true]
    constructor
    · exact Or.inl
    · rintro (h1 | h1)
      · exact h1
      · exact h1 ▸ h
  · simp [h]

theorem subset_add (cl : List String) (t c : String) (h : c ∈ cl) : c ∈ add cl t :=
  (mem_add cl t c).mpr (Or.inl h)

theorem mem_expandChapter_of_mem (cl : List String) (c : String) (h : c ∈ cl) :
    c ∈ expandChapter cl := by
  unfold expandChapter
  split
  · exact subset_add cl _ c h
  · exact h

theorem mem_toggle (cl : List String) (t c : String) :
    c ∈ toggle cl t ↔ if c = t then t ∉ cl else c ∈ cl := by
  unfold toggle contains
  by_cases h : t ∈ cl
  · by_cases hc : c = t
    · simp [h, hc]
    · simp [h, hc]
  · by_cases hc : c = t
    · simp [h, hc]
    · simp [h, hc]

/-! ## Scroll position and `sessionStorage` -/

/-- C5: the click listener sets the key `sidebar-scroll` to the string form of the
sidebar's scrollTop and changes no other key when the target's tag name is `A`; for any
other tag name it leaves `sessionStorage` as it is. -/
theorem clickListener_writes_only_for_links (tagName : String) (scrollTop : Nat) (st : Storage) :
    (tagName = "A" →
      getItem (clickListener tagName scrollTop st) "sidebar-scroll"
          = some (numberToString scrollTop) ∧
        ∀ k, k ≠ "sidebar-scroll" → getItem (clickListener tagName scrollTop st) k = getItem st k) ∧
    (tagName ≠ "A" → clickListener tagName scrollTop st = st) := by
  constructor
  · intro h
    subst h
    have : clickListener "A" scrollTop st
        = setItem st "sidebar-scroll" (numberToString scrollTop) := by
      simp [clickListener]
    rw [this]
    constructor
    · rw [getItem_setItem, if_pos rfl]
    · intro k hk
      rw [getItem_setItem, if_neg hk]
  · intro h
    simp [clickListener, h]

theorem clickListener_writes_only_for_links_witness :
    (getItem (clickListener "A" 120 [("theme", "navy")]) "sidebar-scroll"
        = some (numberToString 120) ∧
      getItem (clickListener "A" 120 [("theme", "navy")]) "theme"
        = getItem [("theme", "navy")] "theme") ∧
    clickListener "STRONG" 120 [("theme", "navy")] = [("theme", "navy")] :=
  ⟨⟨((clickListener_writes_only_for_links "A" 120 [("theme", "navy")]).1 rfl).1,
    ((clickListener_writes_only_for_links "A" 120 [("theme", "navy")]).1 rfl).2 "theme"
      (by decide)⟩,
   (clickListener_writes_only_for_links "STRONG" 120 [("theme", "navy")]).2 (by decide)⟩

/-- C3: after the click listener has handled a click on an `A` element at scroll offset
`s` (zero included), `connectedCallback` run on the resulting `sessionStorage` assigns the
stored string form of `s` to `scrollTop` and does not call `scrollIntoView`. -/
theorem scroll_position_preserved (pg : Page) (s : Nat) (st : Storage) :
    (connectedCallback pg (clickListener "A" s st)).scrollTop = some (numberToString s) ∧
    (connectedCallback pg (clickListener "A" s st)).scrollIntoView = none := by
  have hget : getItem (clickListener "A" s st) "sidebar-scroll" = some (numberToString s) := by
    have : clickListener "A" s st = setItem st "sidebar-scroll" (numberToString s) := by
      simp [clickListener]
    rw [this, getItem_setItem, if_pos rfl]
  unfold connectedCallback
  simp only [hget, truthy_numberToString, if_true, and_self]

/-- C4: `connectedCallback` removes the key `sidebar-scroll` and keeps every other key;
a non-empty stored string is assigned to `scrollTop` with no `scrollIntoView` call; with
the key absent or empty, `scrollTop` is not assigned and the element answering
`#sidebar .active`, if any, is scrolled into view with block `center`. -/
theorem connectedCallback_storage (pg : Page) (st : Storage) :
    getItem (connectedCallback pg st).sessionStorage "sidebar-scroll" = none ∧
    (∀ k, k ≠ "sidebar-scroll" →
      getItem (connectedCallback pg st).sessionStorage k = getItem st k) ∧
    (∀ v, getItem st "sidebar-scroll" = some v → v ≠ "" →
      (connectedCallback pg st).scrollTop = some v ∧
      (connectedCallback pg st).scrollIntoView = none) ∧
    (getItem st "sidebar-scroll" = none ∨ getItem st "sidebar-scroll" = some "" →
      (connectedCallback pg st).scrollTop = none ∧
      (connectedCallback pg st).scrollIntoView =
        (pg.querySelector (connectedCallback pg st).sidebar).map (fun e => (e, "center"))) := by
  have hst : (connectedCallback pg st).sessionStorage = removeItem st "sidebar-scroll" := by
    unfold connectedCallback
    simp only
    split
    · split <;> rfl
    · rfl
  refine ⟨?_, ?_, ?_, ?_⟩
  · rw [hst, getItem_removeItem, if_pos rfl]
  · intro k hk
    rw [hst, getItem_removeItem, if_neg hk]
  · intro v hv hne
    have ht : truthy v = true := by simp [truthy, hne]
    unfold connectedCallback
    simp only [hv, ht, if_true, and_self]
  · rintro (h | h)
    · unfold connectedCallback
      simp only [h, and_self]
    · have ht : truthy "" = false := by decide
      unfold connectedCallback
      simp only [h, ht, Bool.false_eq_true, if_false, and_self]

theorem connectedCallback_storage_witness :
    ((connectedCallback (examplePage "https://example.org/book/" "")
        [("sidebar-scroll", "240"), ("theme", "navy")]).scrollTop = some "240" ∧
      (connectedCallback (examplePage "https://example.org/book/" "")
        [("sidebar-scroll", "240"), ("theme", "navy")]).scrollIntoView = none) ∧
    getItem (connectedCallback (examplePage "https://example.org/book/" "")
        [("sidebar-scroll", "240"), ("theme", "navy")]).sessionStorage "theme"
      = getItem [("sidebar-scroll", "240"), ("theme", "navy")] "theme" :=
  ⟨(connectedCallback_storage (examplePage "https://example.org/book/" "")
      [("sidebar-scroll", "240"), ("theme", "navy")]).2.2.1 "240" (by decide) (by decide),
   (connectedCallback_storage (examplePage "https://example.org/book/" "")
      [("sidebar-scroll", "240"), ("theme", "navy")]).2.1 "theme" (by decide)⟩

/-! ## Toggles -/

/-- C6: `toggleSection` on a toggle whose parent has class list `cl` succeeds, adds
`expanded` when it is absent, removes it when it is present, keeps the membership of every
other class, and a second call restores the original set of classes. -/
theorem toggleSection_involution (cl : List String) :
    toggleSection (some cl) = .ok (toggle cl "expanded") ∧
    ("expanded" ∉ cl → "expanded" ∈ toggle cl "expanded") ∧
    ("expanded" ∈ cl → "expanded" ∉ toggle cl "expanded") ∧
    (∀ c, c ≠ "expanded" → (c ∈ toggle cl "expanded" ↔ c ∈ cl)) ∧
    toggleSection (some (toggle cl "expanded")) = .ok (toggle (toggle cl "expanded") "expanded") ∧
    (∀ c, c ∈ toggle (toggle cl "expanded") "expanded" ↔ c ∈ cl) := by
  refine ⟨rfl, ?_, ?_, ?_, rfl, ?_⟩
  · intro h
    rw [mem_toggle, if_pos rfl]
    exact h
  · intro h
    rw [mem_toggle, if_pos rfl]
    exact fun h2 => h2 h
  · intro c hc
    rw [mem_toggle, if_neg hc]
  · intro c
    by_cases hc : c = "expanded"
    · subst hc
      rw [mem_toggle, if_pos rfl, mem_toggle, if_pos rfl, not_not]
    · rw [mem_toggle, if_neg hc, mem_toggle, if_neg hc]

theorem toggleSection_involution_witness :
    "expanded" ∈ toggle ["chapter-item"] "expanded" ∧
    "expanded" ∉ toggle ["chapter-item", "expanded"] "expanded" ∧
    ("chapter-item" ∈ toggle ["chapter-item", "expanded"] "expanded"
      ↔ "chapter-item" ∈ ["chapter-item", "expanded"]) :=
  ⟨(toggleSection_involution ["chapter-item"]).2.1 (by decide),
   (toggleSection_involution ["chapter-item", "expanded"]).2.2.1 (by decide),
   (toggleSection_involution ["chapter-item", "expanded"]).2.2.2.1 "chapter-item" (by decide)⟩

/-! ## The pattern -/

theorem inClass_schemeClass (c : Char) : inClass schemeClass c = true ↔ SchemeChar c := by
  unfold inClass schemeClass SchemeChar
  simp only [List.any_cons, List.any_nil, Bool.or_false, Bool.or_eq_true, Bool.and_eq_true,
    decide_eq_true_eq]
  constructor
  · rintro (h | h)
    · exact Or.inl h
    · exact Or.inr (le_antisymm h.2 h.1)
  · rintro (h | h)
    · exact Or.inl h
    · subst h
      exact Or.inr ⟨le_refl _, le_refl _⟩

theorem mem_ends_char (c : Char) (s t : List Char) :
    t ∈ RegExp.ends (.char c) s ↔ s = c :: t := by
  cases s with
  | nil => simp [RegExp.ends]
  | cons x xs =>
    by_cases h : x = c
    · subst h
      simp [RegExp.ends, eq_comm]
    · simp [RegExp.ends, h]

theorem mem_ends_cls (rs : List (Char × Char)) (s t : List Char) :
    t ∈ RegExp.ends (.cls rs) s ↔ ∃ x, inClass rs x = true ∧ s = x :: t := by
  cases s with
  | nil => simp [RegExp.ends]
  | cons x xs =>
    by_cases h : inClass rs x = true
    · simp only [RegExp.ends, h, if_true, List.mem_singleton, List.cons.injEq]
      constructor
      · intro ht
        exact ⟨x, h, rfl, ht.symm⟩
      · rintro ⟨y, _, _, h2⟩
        exact h2.symm
    · simp only [RegExp.ends, h, Bool.false_eq_true, if_false, List.not_mem_nil, List.cons.injEq,
        false_iff, not_exists, not_and]
      intro y hy hxy
      exact absurd (hxy ▸ hy) h

theorem mem_ends_seq (a b : RegExp) (s u : List Char) :
    u ∈ RegExp.ends (.seq a b) s ↔ ∃ t, t ∈ RegExp.ends a s ∧ u ∈ RegExp.ends b t := by
  simp [RegExp.ends, List.mem_flatMap]

theorem mem_ends_opt (a : RegExp) (s u : List Char) :
    u ∈ RegExp.ends (.opt a) s ↔ u ∈ RegExp.ends a s ∨ u = s := by
  simp [RegExp.ends]

theorem mem_plusEnds_cls (rs : List (Char × Char)) (n : Nat) (s t : List Char)
    (hn : s.length < n) :
    t ∈ plusEnds (RegExp.ends (.cls rs)) n s ↔
      ∃ run, run ≠ [] ∧ (∀ c ∈ run, inClass rs c = true) ∧ s = run ++ t := by
  induction n generalizing s with
  | zero => exact absurd hn (Nat.not_lt_zero _)
  | succ n ih =>
    unfold plusEnds
    rw [List.mem_flatMap]
    constructor
    · rintro ⟨u, hu, ht⟩
      obtain ⟨x, hx, rfl⟩ := (mem_ends_cls rs s u).mp hu
      have hlt : u.length < (x :: u).length := by simp
      rw [if_pos hlt, List.mem_append, List.mem_singleton] at ht
      rcases ht with ht | ht
      · have hn2 : u.length < n := by
          simp only [List.length_cons] at hn
          omega
        obtain ⟨run, _, hall, hrun⟩ := (ih u hn2).mp ht
        refine ⟨x :: run, by simp, ?_, by simp [hrun]⟩
        intro c hc
        rcases List.mem_cons.mp hc with hc | hc
        · exact hc ▸ hx
        · exact hall c hc
      · subst ht
        exact ⟨[x], by simp, by simpa using hx, rfl⟩
    · rintro ⟨run, hne, hall, rfl⟩
      cases run with
      | nil => exact absurd rfl hne
      | cons x run =>
        refine ⟨run ++ t, (mem_ends_cls rs _ _).mpr ⟨x, hall x (by simp), rfl⟩, ?_⟩
        have hlt : (run ++ t).length < (x :: run ++ t).length := by simp
        rw [if_pos hlt, List.mem_append, List.mem_singleton]
        cases run with
        | nil => exact Or.inr rfl
        | cons y run =>
          left
          have hn2 : (y :: run ++ t).length < n := by
            simp only [List.cons_append, List.length_cons] at hn ⊢
            omega
          refine (ih _ hn2).mpr ⟨y :: run, by simp, ?_, rfl⟩
          intro c hc
          exact hall c (List.mem_cons_of_mem _ hc)

theorem test_eq_true_iff (re : RegExp) (h : String) :
    re.test h = true ↔ ∃ t, t ∈ re.ends h.data := by
  unfold RegExp.test
  cases re.ends h.data with
  | nil => simp
  | cons x xs => simp

theorem mem_ends_slashes (s u : List Char) :
    u ∈ RegExp.ends (.seq (.char '/') (.char '/')) s ↔ s = '/' :: '/' :: u := by
  rw [mem_ends_seq]
  constructor
  · rintro ⟨t, h1, h2⟩
    rw [mem_ends_char] at h1 h2
    rw [h1, h2]
  · intro h
    exact ⟨'/' :: u, (mem_ends_char _ _ _).mpr h, (mem_ends_char _ _ _).mpr rfl⟩

theorem test_absoluteUrlPattern (h : String) :
    absoluteUrlPattern.test h = true ↔ BeginsAbsolute h := by
  rw [test_eq_true_iff]
  unfold absoluteUrlPattern BeginsAbsolute
  constructor
  · rintro ⟨u, hu⟩
    rw [mem_ends_seq] at hu
    obtain ⟨t, ht, hu⟩ := hu
    rw [mem_ends_slashes] at hu
    rw [mem_ends_opt] at ht
    rcases ht with ht | ht
    · right
      rw [mem_ends_seq] at ht
      obtain ⟨v, hv, hcolon⟩ := ht
      rw [mem_ends_char] at hcolon
      unfold RegExp.ends at hv
      obtain ⟨run, hne, hall, hrun⟩ := (mem_plusEnds_cls _ _ _ _ (Nat.lt_succ_self _)).mp hv
      refine ⟨run, u, hne, fun c hc => (inClass_schemeClass c).mp (hall c hc), ?_⟩
      rw [hrun, hcolon, hu]
    · left
      exact ⟨u, by rw [← ht, hu]⟩
  · rintro (⟨rest, hr⟩ | ⟨run, rest, hne, hall, hr⟩)
    · refine ⟨rest, (mem_ends_seq _ _ _ _).mpr ⟨h.data, ?_, (mem_ends_slashes _ _).mpr hr⟩⟩
      exact (mem_ends_opt _ _ _).mpr (Or.inr rfl)
    · refine ⟨rest, (mem_ends_seq _ _ _ _).mpr ⟨'/' :: '/' :: rest, ?_, (mem_ends_slashes _ _).mpr rfl⟩⟩
      refine (mem_ends_opt _ _ _).mpr (Or.inl ((mem_ends_seq _ _ _ _).mpr
        ⟨':' :: '/' :: '/' :: rest, ?_, (mem_ends_char _ _ _).mpr rfl⟩))
      unfold RegExp.ends
      exact (mem_plusEnds_cls _ _ _ _ (Nat.lt_succ_self _)).mpr
        ⟨run, hne, fun c hc => (inClass_schemeClass c).mpr (hall c hc), hr⟩

theorem startsWith_hash (h : String) :
    startsWith h "#" = true ↔ ∃ rest, h.data = '#' :: rest := by
  unfold startsWith
  rw [List.isPrefixOf_iff_prefix]
  constructor
  · rintro ⟨t, ht⟩
    exact ⟨t, ht.symm⟩
  · rintro ⟨t, ht⟩
    exact ⟨t, ht.symm⟩

theorem truthy_iff (h : String) : truthy h = true ↔ h ≠ "" := by
  simp [truthy]

theorem rewrite_condition (h : String) :
    (truthy h && !startsWith h "#" && !absoluteUrlPattern.test h) = true ↔ Rewritten h := by
  unfold Rewritten
  rw [Bool.and_eq_true, Bool.and_eq_true, truthy_iff, Bool.not_eq_true', Bool.not_eq_true',
    ← Bool.not_eq_true, ← Bool.not_eq_true, startsWith_hash, test_absoluteUrlPattern]
  constructor
  · rintro ⟨⟨h1, h2⟩, h3⟩
    exact ⟨h1, fun rest hr => h2 ⟨rest, hr⟩, h3⟩
  · rintro ⟨h1, h2, h3⟩
    exact ⟨⟨h1, fun ⟨rest, hr⟩ => h2 rest hr⟩, h3⟩

/-! ## The loop over the links -/

theorem getElem?_modifyAt {α : Type} (f : α → α) (k j : Nat) (l : List α) :
    (modifyAt f k l)[j]? = if j = k then (l[j]?).map f else l[j]? := by
  induction l generalizing k j with
  | nil => cases k <;> simp [modifyAt]
  | cons x xs ih =>
    cases k with
    | zero =>
      cases j with
      | zero => simp [modifyAt]
      | succ j => simp [modifyAt]
    | succ k =>
      cases j with
      | zero => simp [modifyAt]
      | succ j => simp [modifyAt, ih]

theorem length_modifyAt {α : Type} (f : α → α) (k : Nat) (l : List α) :
    (modifyAt f k l).length = l.length := by
  induction l generalizing k with
  | nil => cases k <;> rfl
  | cons x xs ih =>
    cases k with
    | zero => rfl
    | succ k => simp [modifyAt, ih]

theorem map_modifyAt {α β : Type} (g : α → β) (f : α → α) (f2 : β → β) (k : Nat) (l : List α)
    (h : ∀ x, l[k]? = some x → g (f x) = f2 (g x)) :
    (modifyAt f k l).map g = modifyAt f2 k (l.map g) := by
  induction l generalizing k with
  | nil => cases k <;> rfl
  | cons x xs ih =>
    cases k with
    | zero =>
      simp only [modifyAt, List.map_cons]
      rw [h x (by simp)]
    | succ k =>
      simp only [modifyAt, List.map_cons]
      rw [ih k (fun y hy => h y (by simpa using hy))]

theorem modifyAt_eq_self {α : Type} (f : α → α) (k : Nat) (l : List α)
    (h : ∀ x, l[k]? = some x → f x = x) : modifyAt f k l = l := by
  induction l generalizing k with
  | nil => cases k <;> rfl
  | cons x xs ih =>
    cases k with
    | zero =>
      simp only [modifyAt]
      rw [h x (by simp)]
    | succ k =>
      simp only [modifyAt]
      rw [ih k (fun y hy => h y (by simpa using hy))]

/-! ## The `while` loop ends -/

theorem whileParent_none (n : Nat) (sb : Sidebar) : whileParent n none sb = some sb := by
  cases n <;> rfl

theorem mapFrom_zero {α : Type} (f : α → α) (l : List α) : mapFrom f 0 l = l.map f := by
  cases l <;> rfl

theorem mapFrom_of_length_le {α : Type} (f : α → α) (j : Nat) (l : List α)
    (h : l.length ≤ j) : mapFrom f j l = l := by
  induction l generalizing j with
  | nil => cases j <;> rfl
  | cons x xs ih =>
    cases j with
    | zero => simp at h
    | succ j =>
      simp only [mapFrom]
      rw [ih j (by simpa using h)]

theorem mapFrom_succ_modifyAt {α : Type} (f : α → α) (j : Nat) (l : List α) :
    mapFrom f (j + 1) (modifyAt f j l) = mapFrom f j l := by
  induction l generalizing j with
  | nil => cases j <;> rfl
  | cons x xs ih =>
    cases j with
    | zero =>
      simp only [modifyAt, mapFrom, mapFrom_zero, List.map_cons]
    | succ j =>
      simp only [modifyAt, mapFrom]
      rw [ih j]

theorem whileParent_outer (n : Nat) (sb : Sidebar) (j : Nat) (hj : j ≤ sb.chain.length)
    (hn : sb.chain.length - j ≤ n) :
    whileParent n (if j < sb.chain.length then some (.outer j) else none) sb =
      some { sb with chain := mapFrom revealAncestor j sb.chain } := by
  induction n generalizing sb j with
  | zero =>
    have h1 : ¬ j < sb.chain.length := by omega
    rw [if_neg h1, whileParent_none, mapFrom_of_length_le _ _ _ (by omega)]
  | succ n ih =>
    by_cases h1 : j < sb.chain.length
    · rw [if_pos h1]
      have hlen : (whileBody sb (.outer j)).chain.length = sb.chain.length := by
        simp only [whileBody, length_modifyAt]
      have step : whileParent (n + 1) (some (.outer j)) sb =
          whileParent n
            (if j + 1 < (whileBody sb (.outer j)).chain.length then some (.outer (j + 1))
              else none)
            (whileBody sb (.outer j)) := rfl
      rw [step, ih (whileBody sb (.outer j)) (j + 1) (by omega) (by omega)]
      simp only [whileBody, mapFrom_succ_modifyAt]
    · rw [if_neg h1, whileParent_none, mapFrom_of_length_le _ _ _ (by omega)]

theorem whileParent_item (n k : Nat) (sb : Sidebar) (hn : sb.chain.length + 1 ≤ n) :
    whileParent n (some (.item k)) sb = some (reveal k sb) := by
  cases n with
  | zero => omega
  | succ n =>
    have hlen : (whileBody sb (.item k)).chain.length = sb.chain.length := by
      simp only [whileBody]
      split <;> rfl
    have step : whileParent (n + 1) (some (.item k)) sb =
        whileParent n
          (if 0 < (whileBody sb (.item k)).chain.length then some (.outer 0) else none)
          (whileBody sb (.item k)) := rfl
    rw [step, whileParent_outer n _ 0 (Nat.zero_le _) (by omega), mapFrom_zero]
    simp only [whileBody, reveal]
    by_cases hk : k = 0
    · simp only [hk, if_true]
    · simp only [hk, if_false]

theorem visitLink_eq (pg : Page) (cp : String) (sb : Sidebar) (ik : Nat × Nat) :
    visitLink pg cp sb ik =
      match sb.items[ik.2]? with
      | none => sb
      | some li =>
        match li.link with
        | none => sb
        | some link0 =>
          if isCurrent pg cp ik.1 (rewriteHref pg.path_to_root link0) then
            { items :=
                if ik.2 = 0 then
                  modifyAt (fun _ =>
                    { classList := expandChapter li.classList,
                      link := some { href := (rewriteHref pg.path_to_root link0).href,
                                     classList := add (rewriteHref pg.path_to_root link0).classList
                                       "active" } }) ik.2 sb.items
                else
                  modifyAt (fun p => { p with classList := expandChapter p.classList }) (ik.2 - 1)
                    (modifyAt (fun _ =>
                      { classList := expandChapter li.classList,
                        link := some { href := (rewriteHref pg.path_to_root link0).href,
                                       classList :=
                                         add (rewriteHref pg.path_to_root link0).classList
                                           "active" } }) ik.2 sb.items),
              chain := sb.chain.map revealAncestor }
          else
            { sb with
              items := modifyAt (fun _ =>
                { li with link := some (rewriteHref pg.path_to_root link0) }) ik.2 sb.items } := by
  unfold visitLink
  cases hk : sb.items[ik.2]? with
  | none => rfl
  | some li =>
    cases hl : li.link with
    | none => simp only [hl]
    | some link0 =>
      simp only [hl]
      split
      · have h := fun items : List Li =>
          whileParent_item (sb.chain.length + 1) ik.2 { items := items, chain := sb.chain }
            (Nat.le_refl _)
        rw [h]
        simp only [Option.getD_some, reveal]
      · rfl

theorem visitLink_links (pg : Page) (cp : String) (sb : Sidebar) (ik : Nat × Nat) :
    (visitLink pg cp sb ik).items.map (fun li => li.link) =
      modifyAt (Option.map (processLink pg cp ik.1)) ik.2 (sb.items.map (fun li => li.link)) := by
  rw [visitLink_eq]
  cases hk : sb.items[ik.2]? with
  | none =>
    simp only
    rw [modifyAt_eq_self]
    intro x hx
    rw [List.getElem?_map, hk] at hx
    cases hx
  | some li =>
    cases hl : li.link with
    | none =>
      simp only [hl]
      rw [modifyAt_eq_self]
      intro x hx
      rw [List.getElem?_map, hk] at hx
      simp only [Option.map_some', Option.some.injEq] at hx
      rw [← hx, hl]
      rfl
    | some link0 =>
      simp only [hl]
      by_cases hc : isCurrent pg cp ik.1 (rewriteHref pg.path_to_root link0) = true
      · rw [if_pos hc]
        simp only
        have h1 : ∀ l : List Li,
            (if ik.2 = 0 then l
              else modifyAt (fun p => { p with classList := expandChapter p.classList })
                (ik.2 - 1) l).map (fun li => li.link) = l.map (fun li => li.link) := by
          intro l
          split
          · rfl
          · rw [map_modifyAt (fun li : Li => li.link)
              (fun p : Li => { p with classList := expandChapter p.classList }) id _ _
              (fun x _ => rfl)]
            rw [modifyAt_eq_self id _ _ (fun x _ => rfl)]
        rw [h1]
        apply map_modifyAt
        intro x hx
        rw [hk] at hx
        cases hx
        simp only [hl, Option.map_some', processLink, hc, if_true]
      · rw [if_neg hc]
        simp only
        apply map_modifyAt
        intro x hx
        rw [hk] at hx
        cases hx
        simp only [hl, Option.map_some', processLink, hc, Bool.false_eq_true, if_false]

theorem foldl_visitLink_links (pg : Page) (cp : String) (ps : List (Nat × Nat)) (sb : Sidebar) :
    (ps.foldl (visitLink pg cp) sb).items.map (fun li => li.link) =
      ps.foldl (fun ls ik => modifyAt (Option.map (processLink pg cp ik.1)) ik.2 ls)
        (sb.items.map (fun li => li.link)) := by
  induction ps generalizing sb with
  | nil => rfl
  | cons p ps ih =>
    simp only [List.foldl_cons]
    rw [ih, visitLink_links]

theorem anchors_eq (sb : Sidebar) :
    anchors sb = (sb.items.map (fun li => li.link)).filterMap id := by
  unfold anchors
  rw [List.filterMap_map]
  rfl

theorem anchors_markActive_injected (pg : Page) (cp : String) :
    anchors (markActive pg cp (injected pg)) =
      (anchors (injected pg)).enum.map (fun ia => processLink pg cp ia.1 ia.2) := by
  rw [anchors_eq]
  unfold markActive
  rw [foldl_visitLink_links]
  rfl

/-! ## Links: rewriting and the active page -/

theorem connectedCallback_sidebar (pg : Page) (st : Storage) :
    (connectedCallback pg st).sidebar = markActive pg (current_page pg.location) (injected pg) := by
  unfold connectedCallback
  simp only
  split
  · split <;> with_reducible rfl
  · with_reducible rfl

theorem rewriteHref_classList (p : String) (a : Anchor) :
    (rewriteHref p a).classList = a.classList := by
  unfold rewriteHref
  split
  · split <;> rfl
  · rfl

theorem processLink_href (pg : Page) (cp : String) (i : Nat) (a : Anchor) :
    (processLink pg cp i a).href = (rewriteHref pg.path_to_root a).href := by
  unfold processLink
  simp only
  split <;> rfl

theorem hrefProperty_processLink (pg : Page) (cp : String) (i : Nat) (a : Anchor) :
    hrefProperty pg.resolve (processLink pg cp i a)
      = hrefProperty pg.resolve (rewriteHref pg.path_to_root a) := by
  unfold hrefProperty
  rw [processLink_href]

theorem active_processLink (pg : Page) (cp : String) (i : Nat) (a : Anchor)
    (ha : "active" ∉ a.classList) :
    "active" ∈ (processLink pg cp i a).classList ↔
      isCurrent pg cp i (rewriteHref pg.path_to_root a) = true := by
  unfold processLink
  simp only
  split
  · next h =>
    simp only [h, iff_true]
    exact (mem_add _ _ _).mpr (Or.inr rfl)
  · next h =>
    rw [rewriteHref_classList]
    exact ⟨fun h2 => absurd h2 ha, fun h2 => absurd h2 h⟩

theorem isCurrent_iff (pg : Page) (cp : String) (i : Nat) (a : Anchor) :
    isCurrent pg cp i a = true ↔
      hrefProperty pg.resolve a = cp ∨
        (i = 0 ∧ pg.path_to_root = "" ∧ endsWith cp "/index.html" = true) := by
  unfold isCurrent
  simp only [Bool.or_eq_true, Bool.and_eq_true, beq_iff_eq, and_assoc]

theorem anchors_injected (pg : Page) :
    anchors (injected pg) = injectedList.filterMap (fun li => li.link) := rfl

theorem injected_not_active :
    ∀ a ∈ injectedList.filterMap (fun li => li.link), "active" ∉ a.classList := by
  decide

set_option maxRecDepth 100000 in
theorem injected_rewritable :
    ∀ a ∈ injectedList.filterMap (fun li => li.link),
      a.href.map (fun h => truthy h && !startsWith h "#" && !absoluteUrlPattern.test h)
        = some true := by
  decide

theorem getElem?_final (pg : Page) (st : Storage) (i : Nat) (a : Anchor)
    (h : (anchors (connectedCallback pg st).sidebar)[i]? = some a) :
    ∃ a0, (anchors (injected pg))[i]? = some a0 ∧
      a = processLink pg (current_page pg.location) i a0 := by
  rw [connectedCallback_sidebar, anchors_markActive_injected, List.getElem?_map] at h
  cases h0 : (anchors (injected pg)).enum[i]? with
  | none => rw [h0] at h; cases h
  | some ia =>
    rw [h0] at h
    rw [List.getElem?_enum] at h0
    cases h1 : (anchors (injected pg))[i]? with
    | none => rw [h1] at h0; cases h0
    | some a0 =>
      rw [h1] at h0
      simp only [Option.map_some', Option.some.injEq] at h0 h
      subst h0
      exact ⟨a0, rfl, h.symm⟩

theorem splitHashFirst_spec (loc : String) :
    '#' ∉ (splitHashFirst loc).data ∧
    (loc.data = (splitHashFirst loc).data ∨
      ∃ rest, loc.data = (splitHashFirst loc).data ++ '#' :: rest) := by
  unfold splitHashFirst
  simp only
  constructor
  · intro h
    have := List.mem_takeWhile_imp h
    simp at this
  · have h := List.takeWhile_append_dropWhile (fun c => c != '#') loc.data
    cases hd : List.dropWhile (fun c => c != '#') loc.data with
    | nil =>
      left
      rw [hd, List.append_nil] at h
      exact h.symm
    | cons x xs =>
      right
      have hx := List.head_dropWhile_not (fun c => c != '#') loc.data (by rw [hd]; simp)
      simp only [hd, List.head_cons, bne_iff_ne, ne_eq, Bool.not_eq_true,
        bne_eq_false_iff_eq] at hx
      subst hx
      refine ⟨xs, ?_⟩
      rw [← hd, h]

/-- C1: `connectedCallback` leaves 21 links, and the link of index `i` carries the class
`active` exactly when its `href` property (read after the rewrite) equals `current_page`,
or `i = 0`, `path_to_root` is empty and `current_page` ends with `/index.html`; here
`current_page` is the location cut before the first `#`, with `index.html` appended when
that part ends with `/`. -/
theorem active_iff_current_page (pg : Page) (st : Storage) :
    (anchors (connectedCallback pg st).sidebar).length = 21 ∧
    (∀ i a, (anchors (connectedCallback pg st).sidebar)[i]? = some a →
      ("active" ∈ a.classList ↔
        hrefProperty pg.resolve a = current_page pg.location ∨
          (i = 0 ∧ pg.path_to_root = "" ∧
            endsWith (current_page pg.location) "/index.html" = true))) ∧
    ('#' ∉ (splitHashFirst pg.location).data ∧
      (pg.location.data = (splitHashFirst pg.location).data ∨
        ∃ rest, pg.location.data = (splitHashFirst pg.location).data ++ '#' :: rest)) ∧
    current_page pg.location =
      (if endsWith (splitHashFirst pg.location) "/" = true
        then splitHashFirst pg.location ++ "index.html" else splitHashFirst pg.location) := by
  refine ⟨?_, ?_, splitHashFirst_spec _, rfl⟩
  · rw [connectedCallback_sidebar, anchors_markActive_injected]
    rfl
  · intro i a h
    obtain ⟨a0, h0, rfl⟩ := getElem?_final pg st i a h
    have hmem : a0 ∈ injectedList.filterMap (fun li => li.link) := by
      rw [← anchors_injected pg]
      exact List.getElem?_mem h0
    rw [active_processLink pg _ i a0 (injected_not_active a0 hmem), hrefProperty_processLink,
      isCurrent_iff]

set_option maxRecDepth 100000 in
theorem active_iff_current_page_witness :
    (anchors (connectedCallback
        (examplePage "https://example.org/book/introduction/colophon.html#top" "") []).sidebar)[1]?
      = some { href := some "introduction/colophon.html", classList := ["active"] } ∧
    ("active" ∈ ({ href := some "introduction/colophon.html", classList := ["active"] } :
        Anchor).classList ↔
      hrefProperty
          (examplePage "https://example.org/book/introduction/colophon.html#top" "").resolve
          { href := some "introduction/colophon.html", classList := ["active"] }
        = current_page
          (examplePage "https://example.org/book/introduction/colophon.html#top" "").location ∨
      (1 = 0 ∧
        (examplePage "https://example.org/book/introduction/colophon.html#top" "").path_to_root
          = "" ∧
        endsWith (current_page
          (examplePage "https://example.org/book/introduction/colophon.html#top" "").location)
          "/index.html" = true)) :=
  ⟨by decide,
   (active_iff_current_page
      (examplePage "https://example.org/book/introduction/colophon.html#top" "") []).2.1 1 _
      (by decide)⟩

theorem endsWith_index (s : String) (h : endsWith s "/" = true) :
    endsWith (s ++ "index.html") "/index.html" = true := by
  unfold endsWith at h ⊢
  rw [List.isSuffixOf_iff_suffix] at h ⊢
  obtain ⟨t, ht⟩ := h
  refine ⟨t, ?_⟩
  rw [String.data_append, ← ht]
  simp

theorem endsWith_current_page (loc : String)
    (h : endsWith (splitHashFirst loc) "/" = true ∨
      endsWith (splitHashFirst loc) "/index.html" = true) :
    endsWith (current_page loc) "/index.html" = true := by
  unfold current_page
  simp only
  by_cases hs : endsWith (splitHashFirst loc) "/" = true
  · rw [if_pos hs]
    exact endsWith_index _ hs
  · rw [if_neg hs]
    rcases h with h | h
    · exact absurd h hs
    · exact h

/-- C2: with an empty `path_to_root` and a location whose part before the first `#` ends
with `/` or with `/index.html`, `connectedCallback` gives the class `active` to the first
link of the list, the one to `introduction/cover.html`. -/
theorem index_aliases_first_chapter (pg : Page) (st : Storage)
    (hp : pg.path_to_root = "")
    (h : endsWith (splitHashFirst pg.location) "/" = true ∨
      endsWith (splitHashFirst pg.location) "/index.html" = true) :
    ∃ a, (anchors (connectedCallback pg st).sidebar)[0]? = some a ∧
      a.href = some "introduction/cover.html" ∧ "active" ∈ a.classList := by
  rw [connectedCallback_sidebar, anchors_markActive_injected]
  refine ⟨processLink pg (current_page pg.location) 0
    { href := some "introduction/cover.html", classList := [] }, rfl, ?_, ?_⟩
  · rw [processLink_href, hp]
    decide
  · rw [active_processLink _ _ _ _ (by decide), isCurrent_iff]
    exact Or.inr ⟨rfl, hp, endsWith_current_page _ h⟩

set_option maxRecDepth 100000 in
theorem index_aliases_first_chapter_witness :
    (examplePage "https://example.org/book/#intro" "").path_to_root = "" ∧
    endsWith (splitHashFirst (examplePage "https://example.org/book/#intro" "").location) "/"
      = true ∧
    ∃ a, (anchors (connectedCallback (examplePage "https://example.org/book/#intro" "")
        []).sidebar)[0]? = some a ∧
      a.href = some "introduction/cover.html" ∧ "active" ∈ a.classList :=
  ⟨rfl, by decide,
   index_aliases_first_chapter (examplePage "https://example.org/book/#intro" "") [] rfl
     (Or.inl (by decide))⟩

/-- C9: `rewriteHref` replaces an `href` attribute `h` by `path_to_root + h` when `h` is
non-empty, does not start with `#` and does not begin with `//` nor with a non-empty run
of characters of `[a-z+]` followed by `://`; otherwise, and without the attribute, the
link is left as it is. Each of the 21 links of the injected list meets the condition and
ends up with `path_to_root + h`. -/
theorem href_rewriting (pg : Page) (st : Storage) :
    (∀ p h cl, Rewritten h →
      rewriteHref p { href := some h, classList := cl }
        = { href := some (p ++ h), classList := cl }) ∧
    (∀ p h cl, ¬ Rewritten h →
      rewriteHref p { href := some h, classList := cl } = { href := some h, classList := cl }) ∧
    (∀ p cl, rewriteHref p { href := none, classList := cl } = { href := none, classList := cl }) ∧
    (anchors (injected pg)).length = 21 ∧
    (∀ (i : Nat) (a0 : Anchor), (anchors (injected pg))[i]? = some a0 →
      ∃ h, a0.href = some h ∧ Rewritten h ∧
        ((anchors (connectedCallback pg st).sidebar)[i]?).map (fun a : Anchor => a.href)
          = some (some (pg.path_to_root ++ h))) := by
  refine ⟨?_, ?_, fun _ _ => rfl, rfl, ?_⟩
  · intro p h cl hr
    have := (rewrite_condition h).mpr hr
    simp only [rewriteHref, this, if_true]
  · intro p h cl hr
    have : ¬ (truthy h && !startsWith h "#" && !absoluteUrlPattern.test h) = true :=
      fun hc => hr ((rewrite_condition h).mp hc)
    simp only [rewriteHref, this, Bool.false_eq_true, if_false]
  · intro i a0 h0
    have hmem : a0 ∈ injectedList.filterMap (fun li => li.link) := by
      rw [← anchors_injected pg]
      exact List.getElem?_mem h0
    have hre := injected_rewritable a0 hmem
    cases hh : a0.href with
    | none => rw [hh] at hre; cases hre
    | some h =>
      rw [hh] at hre
      simp only [Option.map_some', Option.some.injEq] at hre
      refine ⟨h, rfl, (rewrite_condition h).mp hre, ?_⟩
      rw [connectedCallback_sidebar, anchors_markActive_injected, List.getElem?_map,
        List.getElem?_enum, h0]
      simp only [Option.map_some', processLink_href, Option.some.injEq]
      simp only [rewriteHref, hh, hre, if_true]

set_option maxRecDepth 100000 in
theorem href_rewriting_witness :
    Rewritten "part_1/cbor_tags.html" ∧
    rewriteHref "../" { href := some "part_1/cbor_tags.html", classList := [] }
      = { href := some ("../" ++ "part_1/cbor_tags.html"), classList := [] } ∧
    ¬ Rewritten "https://example.org/" ∧
    rewriteHref "../" { href := some "https://example.org/", classList := [] }
      = { href := some "https://example.org/", classList := [] } ∧
    (anchors (injected (examplePage "https://example.org/book/part_1/cbor_tags.html" "../")))[6]?
      = some { href := some "part_1/cbor_tags.html", classList := [] } ∧
    ∃ h, ({ href := some "part_1/cbor_tags.html", classList := [] } : Anchor).href = some h ∧
      Rewritten h ∧
      ((anchors (connectedCallback
          (examplePage "https://example.org/book/part_1/cbor_tags.html" "../")
          []).sidebar)[6]?).map (fun a : Anchor => a.href)
        = some (some ((examplePage "https://example.org/book/part_1/cbor_tags.html"
            "../").path_to_root ++ h)) :=
  ⟨(rewrite_condition _).mp (by decide),
   (href_rewriting (examplePage "https://example.org/book/" "") []).1 "../" _ []
     ((rewrite_condition _).mp (by decide)),
   fun h => absurd ((rewrite_condition _).mpr h) (by decide),
   (href_rewriting (examplePage "https://example.org/book/" "") []).2.1 "../" _ []
     (fun h => absurd ((rewrite_condition _).mpr h) (by decide)),
   by decide,
   (href_rewriting (examplePage "https://example.org/book/part_1/cbor_tags.html" "../")
     []).2.2.2.2 6 _ (by decide)⟩

/-! ## Revealing the active page -/

theorem anchorLe_refl (a : Anchor) : AnchorLe a a := ⟨fun _ h => h, fun h => h⟩

theorem anchorLe_trans {a b c : Anchor} (h1 : AnchorLe a b) (h2 : AnchorLe b c) : AnchorLe a c :=
  ⟨fun _ h => h2.1 (h1.1 h), fun h => h2.2 (h1.2 h)⟩

theorem liLe_refl (a : Li) : LiLe a a := by
  refine ⟨fun _ h => h, ?_⟩
  cases a.link with
  | none => trivial
  | some x => exact anchorLe_refl x

theorem liLe_trans {a b c : Li} (h1 : LiLe a b) (h2 : LiLe b c) : LiLe a c := by
  refine ⟨fun _ h => h2.1 (h1.1 h), ?_⟩
  have h1l := h1.2
  have h2l := h2.2
  cases ha : a.link <;> cases hb : b.link <;> cases hc : c.link <;>
    simp only [ha, hb, hc] at h1l h2l ⊢
  exact anchorLe_trans h1l h2l

theorem outerLe_refl (a : Outer) : OuterLe a a := by
  refine ⟨Eq.refl _, ?_⟩
  cases a.previousElementSibling with
  | none => trivial
  | some x => exact fun _ h => h

theorem outerLe_trans {a b c : Outer} (h1 : OuterLe a b) (h2 : OuterLe b c) : OuterLe a c := by
  refine ⟨h1.1.trans h2.1, ?_⟩
  have h1l := h1.2
  have h2l := h2.2
  cases ha : a.previousElementSibling <;> cases hb : b.previousElementSibling <;>
    cases hc : c.previousElementSibling <;> simp only [ha, hb, hc] at h1l h2l ⊢
  exact fun _ h => h2l (h1l h)

theorem itemsLe_refl (l : List Li) : ItemsLe l l :=
  ⟨Eq.refl _, fun _ li h => ⟨li, h, liLe_refl li⟩⟩

theorem itemsLe_trans {a b c : List Li} (h1 : ItemsLe a b) (h2 : ItemsLe b c) : ItemsLe a c := by
  refine ⟨h2.1.trans h1.1, ?_⟩
  intro k li h
  obtain ⟨li2, hb, hle⟩ := h1.2 k li h
  obtain ⟨li3, hc, hle2⟩ := h2.2 k li2 hb
  exact ⟨li3, hc, liLe_trans hle hle2⟩

theorem chainLe_refl (l : List Outer) : ChainLe l l :=
  ⟨Eq.refl _, fun _ o h => ⟨o, h, outerLe_refl o⟩⟩

theorem chainLe_trans {a b c : List Outer} (h1 : ChainLe a b) (h2 : ChainLe b c) :
    ChainLe a c := by
  refine ⟨h2.1.trans h1.1, ?_⟩
  intro k o h
  obtain ⟨o2, hb, hle⟩ := h1.2 k o h
  obtain ⟨o3, hc, hle2⟩ := h2.2 k o2 hb
  exact ⟨o3, hc, outerLe_trans hle hle2⟩

theorem itemsLe_modifyAt (f : Li → Li) (k : Nat) (l : List Li)
    (h : ∀ x, l[k]? = some x → LiLe x (f x)) : ItemsLe l (modifyAt f k l) := by
  refine ⟨length_modifyAt f k l, ?_⟩
  intro j li hj
  rw [getElem?_modifyAt]
  by_cases hjk : j = k
  · subst hjk
    rw [if_pos (Eq.refl j), hj]
    exact ⟨f li, Eq.refl _, h li hj⟩
  · rw [if_neg hjk]
    exact ⟨li, hj, liLe_refl li⟩

theorem outerLe_revealAncestor (o : Outer) : OuterLe o (revealAncestor o) := by
  unfold revealAncestor
  split
  · cases hp : o.previousElementSibling with
    | none => simp only [hp]; exact outerLe_refl o
    | some cl =>
      refine ⟨Eq.refl _, ?_⟩
      simp only [hp]
      exact fun c hc => mem_expandChapter_of_mem cl c hc
  · exact outerLe_refl o

theorem chainLe_map_revealAncestor (l : List Outer) : ChainLe l (l.map revealAncestor) := by
  refine ⟨List.length_map _ _, ?_⟩
  intro k o h
  rw [List.getElem?_map, h]
  exact ⟨revealAncestor o, Eq.refl _, outerLe_revealAncestor o⟩

theorem rewriteHref_isSome (p : String) (a : Anchor) (h : a.href.isSome = true) :
    (rewriteHref p a).href.isSome = true := by
  unfold rewriteHref
  cases ha : a.href with
  | none => rw [ha] at h; cases h
  | some x =>
    simp only
    split
    · exact Eq.refl _
    · rw [ha]; exact Eq.refl _

theorem visitLink_le (pg : Page) (cp : String) (sb : Sidebar) (ik : Nat × Nat) :
    ItemsLe sb.items (visitLink pg cp sb ik).items ∧
      ChainLe sb.chain (visitLink pg cp sb ik).chain := by
  rw [visitLink_eq]
  cases hk : sb.items[ik.2]? with
  | none => exact ⟨itemsLe_refl _, chainLe_refl _⟩
  | some li =>
    cases hl : li.link with
    | none =>
      simp only [hl]
      exact ⟨itemsLe_refl _, chainLe_refl _⟩
    | some link0 =>
      simp only [hl]
      split
      · refine ⟨?_, chainLe_map_revealAncestor _⟩
        simp only
        have h1 : ItemsLe sb.items
            (modifyAt (fun _ =>
              ({ classList := expandChapter li.classList,
                 link := some { href := (rewriteHref pg.path_to_root link0).href,
                                classList := add (rewriteHref pg.path_to_root link0).classList
                                  "active" } } : Li)) ik.2 sb.items) := by
          apply itemsLe_modifyAt
          intro x hx
          rw [hk] at hx
          cases hx
          refine ⟨fun c hc => mem_expandChapter_of_mem _ c hc, ?_⟩
          simp only [hl]
          refine ⟨fun c hc => subset_add _ _ c ?_, rewriteHref_isSome _ _⟩
          rw [rewriteHref_classList]
          exact hc
        split
        · exact h1
        · refine itemsLe_trans h1 (itemsLe_modifyAt _ _ _ ?_)
          intro x _
          refine ⟨fun c hc => mem_expandChapter_of_mem _ c hc, ?_⟩
          simp only
          cases x.link with
          | none => trivial
          | some y => exact anchorLe_refl y
      · refine ⟨?_, chainLe_refl _⟩
        simp only
        apply itemsLe_modifyAt
        intro x hx
        rw [hk] at hx
        cases hx
        refine ⟨fun c hc => hc, ?_⟩
        simp only [hl]
        refine ⟨fun c hc => ?_, rewriteHref_isSome _ _⟩
        rw [rewriteHref_classList]
        exact hc

theorem foldl_visitLink_le (pg : Page) (cp : String) (ps : List (Nat × Nat)) (sb : Sidebar) :
    ItemsLe sb.items (ps.foldl (visitLink pg cp) sb).items ∧
      ChainLe sb.chain (ps.foldl (visitLink pg cp) sb).chain := by
  induction ps generalizing sb with
  | nil => exact ⟨itemsLe_refl _, chainLe_refl _⟩
  | cons p ps ih =>
    simp only [List.foldl_cons]
    have h1 := visitLink_le pg cp sb p
    have h2 := ih (visitLink pg cp sb p)
    exact ⟨itemsLe_trans h1.1 h2.1, chainLe_trans h1.2 h2.2⟩

theorem injected_parents :
    ∀ li ∈ injectedList, li.link.isSome = true →
      "chapter-item" ∈ li.classList ∧ "expanded" ∈ li.classList := by
  decide

/-! ## What the loop reveals -/

theorem revealed_expandChapter (cl : List String) : Revealed (expandChapter cl) := by
  unfold Revealed expandChapter
  split
  · intro _
    exact (mem_add _ _ _).mpr (Or.inr (Eq.refl _))
  · next h =>
    intro hc
    exact absurd (by simpa [contains] using hc) h

theorem current_item (items : List Li) (k0 : Nat) (li0 newLi : Li)
    (hk : items[k0]? = some li0) (j : Nat) (x : Li)
    (hx : (if k0 = 0 then modifyAt (fun _ => newLi) k0 items
        else modifyAt (fun p => { p with classList := expandChapter p.classList }) (k0 - 1)
          (modifyAt (fun _ => newLi) k0 items))[j]? = some x) :
    ∃ y, items[j]? = some y ∧ (j = k0 → x = newLi) ∧
      (j ≠ k0 → x.link = y.link ∧
        (x.classList = y.classList ∨ x.classList = expandChapter y.classList)) ∧
      (j + 1 = k0 → x.classList = expandChapter y.classList) := by
  by_cases h0 : k0 = 0
  · rw [if_pos h0, getElem?_modifyAt] at hx
    by_cases hj : j = k0
    · rw [if_pos hj] at hx
      subst hj
      rw [hk] at hx
      simp only [Option.map_some', Option.some.injEq] at hx
      exact ⟨li0, hk, fun _ => hx.symm, fun h => absurd (Eq.refl _) h, fun h => by omega⟩
    · rw [if_neg hj] at hx
      exact ⟨x, hx, fun h => absurd h hj, fun _ => ⟨Eq.refl _, Or.inl (Eq.refl _)⟩,
        fun h => by omega⟩
  · rw [if_neg h0, getElem?_modifyAt, getElem?_modifyAt] at hx
    by_cases hj : j = k0
    · have hj1 : ¬ j = k0 - 1 := by omega
      rw [if_neg hj1, if_pos hj] at hx
      subst hj
      rw [hk] at hx
      simp only [Option.map_some', Option.some.injEq] at hx
      exact ⟨li0, hk, fun _ => hx.symm, fun h => absurd (Eq.refl _) h, fun h => by omega⟩
    · by_cases hj1 : j = k0 - 1
      · rw [if_pos hj1, if_neg hj] at hx
        cases hy : items[j]? with
        | none => rw [hy] at hx; cases hx
        | some y =>
          rw [hy] at hx
          simp only [Option.map_some', Option.some.injEq] at hx
          subst hx
          exact ⟨y, Eq.refl _, fun h => absurd h hj,
            fun _ => ⟨Eq.refl _, Or.inr (Eq.refl _)⟩, fun _ => Eq.refl _⟩
      · rw [if_neg hj1, if_neg hj] at hx
        exact ⟨x, hx, fun h => absurd h hj, fun _ => ⟨Eq.refl _, Or.inl (Eq.refl _)⟩,
          fun h => by omega⟩

theorem revealed_of_step (x y : List String) (hy : Revealed y)
    (h : x = y ∨ x = expandChapter y) : Revealed x := by
  rcases h with h | h
  · rw [h]; exact hy
  · rw [h]; exact revealed_expandChapter y

theorem chain_revealed (chain : List Outer) (o : Outer) (ho : o ∈ chain.map revealAncestor)
    (htag : o.tagName = "LI") (cl : List String) (hcl : o.previousElementSibling = some cl) :
    Revealed cl := by
  obtain ⟨o0, _, rfl⟩ := List.mem_map.mp ho
  unfold revealAncestor at htag hcl
  split at hcl
  · cases hp : o0.previousElementSibling with
    | none => simp only [hp] at hcl; cases hcl
    | some cl0 =>
      simp only [hp, Option.some.injEq] at hcl
      rw [← hcl]
      exact revealed_expandChapter cl0
  · next hne =>
    rw [if_neg hne] at htag
    exact absurd (by simpa using htag) hne

theorem visitLink_activeRevealed (pg : Page) (cp : String) (sb : Sidebar) (ik : Nat × Nat)
    (h : ActiveRevealed sb) : ActiveRevealed (visitLink pg cp sb ik) := by
  rw [visitLink_eq]
  cases hk : sb.items[ik.2]? with
  | none => exact h
  | some li0 =>
    cases hl : li0.link with
    | none => simp only [hl]; exact h
    | some link0 =>
      simp only [hl]
      split
      · -- the link is the current page
        intro k li a hkl hla hact
        simp only at hkl
        obtain ⟨y, hy, hsame, hother, _⟩ := current_item sb.items ik.2 li0 _ hk k li hkl
        refine ⟨?_, ?_, ?_⟩
        · by_cases hkk : k = ik.2
          · rw [hsame hkk]
            exact revealed_expandChapter _
          · obtain ⟨hlink, hcl⟩ := hother hkk
            rw [hla] at hlink
            exact revealed_of_step _ _ (h k y a hy hlink.symm hact).1 hcl
        · intro p hk1 hp
          simp only at hp
          obtain ⟨z, hz, hzsame, hzother, hzprev⟩ :=
            current_item sb.items ik.2 li0 _ hk (k - 1) p hp
          by_cases hkk : k = ik.2
          · rw [hzprev (by omega)]
            exact revealed_expandChapter _
          · obtain ⟨hlink, _⟩ := hother hkk
            rw [hla] at hlink
            have hold := (h k y a hy hlink.symm hact).2.1 z hk1 hz
            by_cases hk2 : k - 1 = ik.2
            · rw [hzsame hk2]
              exact revealed_expandChapter _
            · exact revealed_of_step _ _ hold (hzother hk2).2
        · intro o ho htag cl hcl
          exact chain_revealed sb.chain o ho htag cl hcl
      · -- another link: only its href attribute may change
        have hitem : ∀ (j : Nat) (x : Li),
            (modifyAt (fun _ => ({ li0 with link := some (rewriteHref pg.path_to_root link0) } : Li))
              ik.2 sb.items)[j]? = some x →
            ∃ y, sb.items[j]? = some y ∧ x.classList = y.classList ∧
              ∀ a, x.link = some a → ∃ a0, y.link = some a0 ∧ a.classList = a0.classList := by
          intro j x hx
          rw [getElem?_modifyAt] at hx
          by_cases hj : j = ik.2
          · rw [if_pos hj] at hx
            subst hj
            rw [hk] at hx
            simp only [Option.map_some', Option.some.injEq] at hx
            subst hx
            refine ⟨li0, hk, Eq.refl _, ?_⟩
            intro a ha
            simp only [Option.some.injEq] at ha
            exact ⟨link0, hl, by rw [← ha, rewriteHref_classList]⟩
          · rw [if_neg hj] at hx
            exact ⟨x, hx, Eq.refl _, fun a ha => ⟨a, ha, Eq.refl _⟩⟩
        intro k li a hkl hla hact
        simp only at hkl
        obtain ⟨y, hy, hcl, hlink⟩ := hitem k li hkl
        obtain ⟨a0, ha0, hacl⟩ := hlink a hla
        have hold := h k y a0 hy ha0 (hacl ▸ hact)
        refine ⟨hcl ▸ hold.1, ?_, hold.2.2⟩
        intro p hk1 hp
        simp only at hp
        obtain ⟨z, hz, hzcl, _⟩ := hitem (k - 1) p hp
        exact hzcl ▸ hold.2.1 z hk1 hz

theorem foldl_visitLink_activeRevealed (pg : Page) (cp : String) (ps : List (Nat × Nat))
    (sb : Sidebar) (h : ActiveRevealed sb) : ActiveRevealed (ps.foldl (visitLink pg cp) sb) := by
  induction ps generalizing sb with
  | nil => exact h
  | cons p ps ih =>
    simp only [List.foldl_cons]
    exact ih _ (visitLink_activeRevealed pg cp sb p h)

theorem activeRevealed_of_noneActive (sb : Sidebar) (h : NoneActive sb) : ActiveRevealed sb := by
  intro k li a hk hla hact
  have hmem : a ∈ anchors sb := by
    unfold anchors
    exact List.mem_filterMap.mpr ⟨li, List.getElem?_mem hk, hla⟩
  exact absurd hact (h a hmem)

/-- C7: the `while` loop started at the item of a link ends, within one turn for the item
and one for each element of the `parentElement` chain, and leaves `expanded` added on the
`chapter-item` before the item and on the `chapter-item` previous siblings of the `LI`
elements of the chain. From a sidebar in which no link is active, the loop over the links
leaves every link that carries `active` in an item on which `expanded` goes with
`chapter-item`, and likewise the item before it and the previous siblings of the `LI`
elements above; no class is removed from an item, a link or such a sibling. After
`connectedCallback`, every item whose link carries `active` is a `chapter-item` carrying
`expanded`. -/
theorem active_page_revealed (pg : Page) (st : Storage) :
    (∀ (sb : Sidebar) (k n : Nat), sb.chain.length + 1 ≤ n →
      whileParent n (some (.item k)) sb = some (reveal k sb)) ∧
    (∀ (cp : String) (sb : Sidebar), NoneActive sb → ActiveRevealed (markActive pg cp sb)) ∧
    (∀ (cp : String) (sb : Sidebar),
      ItemsLe sb.items (markActive pg cp sb).items ∧
      ChainLe sb.chain (markActive pg cp sb).chain) ∧
    (connectedCallback pg st).sidebar = markActive pg (current_page pg.location) (injected pg) ∧
    NoneActive (injected pg) ∧
    (∀ li ∈ (connectedCallback pg st).sidebar.items, ∀ a, li.link = some a →
      "active" ∈ a.classList → "chapter-item" ∈ li.classList ∧ "expanded" ∈ li.classList) := by
  have hrev : ∀ (cp : String) (sb : Sidebar), NoneActive sb →
      ActiveRevealed (markActive pg cp sb) := fun cp sb h =>
    foldl_visitLink_activeRevealed pg cp _ sb (activeRevealed_of_noneActive sb h)
  have hnone : NoneActive (injected pg) := fun a ha =>
    injected_not_active a (anchors_injected pg ▸ ha)
  refine ⟨fun sb k n hn => whileParent_item n k sb hn, hrev,
    fun cp sb => foldl_visitLink_le pg cp _ sb, connectedCallback_sidebar pg st, hnone, ?_⟩
  rw [connectedCallback_sidebar]
  intro li hli a ha hact
  obtain ⟨k, hk⟩ := List.mem_iff_getElem?.mp hli
  have hle := (foldl_visitLink_le pg (current_page pg.location)
    (links (injected pg).items).enum (injected pg)).1
  have hlen : k < (injected pg).items.length := by
    have := (List.getElem?_eq_some.mp hk).1
    unfold markActive at this
    rw [hle.1] at this
    exact this
  obtain ⟨li0, h0⟩ : ∃ li0, (injected pg).items[k]? = some li0 :=
    ⟨_, List.getElem?_eq_getElem hlen⟩
  obtain ⟨li2, h2, hle2⟩ := hle.2 k li0 h0
  have hk2 : (markActive pg (current_page pg.location) (injected pg)).items[k]? = some li2 := h2
  rw [hk] at hk2
  cases hk2
  have hsome : li0.link.isSome = true := by
    have := hle2.2
    cases h0l : li0.link with
    | none => simp only [h0l, ha] at this
    | some x => exact Eq.refl _
  have hchapter : "chapter-item" ∈ li.classList :=
    hle2.1 (injected_parents li0 (List.getElem?_mem h0) hsome).1
  exact ⟨hchapter, (hrev _ _ hnone k li a hk ha hact).1 hchapter⟩

set_option maxRecDepth 100000 in
theorem active_page_revealed_witness :
    whileParent 4 (some (.item 1)) nestedSidebar = some (reveal 1 nestedSidebar) ∧
    (markActive (examplePage "https://example.org/book/second.html" "")
        "https://example.org/book/second.html" nestedSidebar)
      = { items :=
            [ { classList := ["chapter-item", "expanded"],
                link := some { href := some "first.html", classList := [] } },
              { classList := ["chapter-item", "expanded"],
                link := some { href := some "second.html", classList := ["active"] } } ],
          chain :=
            [ { tagName := "OL", previousElementSibling := none },
              { tagName := "LI", previousElementSibling := some ["chapter-item", "expanded"] },
              { tagName := "OL", previousElementSibling := none } ] } ∧
    Revealed (Li.mk ["chapter-item", "expanded"]
      (some (Anchor.mk (some "second.html") ["active"]))).classList ∧
    Li.mk ["chapter-item", "expanded"]
        (some (Anchor.mk (some "introduction/cover.html") ["active"]))
      ∈ (connectedCallback
          (examplePage "https://example.org/book/index.html" "") []).sidebar.items ∧
    ("chapter-item" ∈ (Li.mk ["chapter-item", "expanded"]
        (some (Anchor.mk (some "introduction/cover.html") ["active"]))).classList ∧
      "expanded" ∈ (Li.mk ["chapter-item", "expanded"]
        (some (Anchor.mk (some "introduction/cover.html") ["active"]))).classList) :=
  ⟨(active_page_revealed (examplePage "https://example.org/book/second.html" "") []).1
      nestedSidebar 1 4 (by decide),
   by decide,
   ((active_page_revealed (examplePage "https://example.org/book/second.html" "") []).2.1
      "https://example.org/book/second.html" nestedSidebar (by unfold NoneActive; decide) 1
      (Li.mk ["chapter-item", "expanded"] (some (Anchor.mk (some "second.html") ["active"])))
      (Anchor.mk (some "second.html") ["active"]) (by decide) rfl (by decide)).1,
   by decide,
   (active_page_revealed (examplePage "https://example.org/book/index.html" "") []).2.2.2.2.2
      (Li.mk ["chapter-item", "expanded"]
        (some (Anchor.mk (some "introduction/cover.html") ["active"])))
      (by decide) _ rfl (by decide)⟩

/-! ## Two edge cases -/

set_option maxRecDepth 100000 in
/-- A click on the `strong` element inside a sidebar link has a target whose tag name is
`STRONG`: the listener stores nothing, and the next `connectedCallback` scrolls the active
entry into view instead of restoring the offset. -/
theorem click_on_strong_not_restored :
    clickListener "STRONG" 120 [] = [] ∧
    (connectedCallback
        (examplePage "https://example.org/book/index.html" "")
        (clickListener "STRONG" 120 [])).scrollTop = none ∧
    (connectedCallback
        (examplePage "https://example.org/book/index.html" "")
        (clickListener "STRONG" 120 [])).scrollIntoView = some (2, "center") := by
  decide

set_option maxRecDepth 100000 in
/-- A query string stays in `current_page`, which is cut at `#` only: on the index page
opened with a query no link is marked. -/
theorem index_with_query_not_marked :
    current_page "https://example.org/book/index.html?highlight=cbor"
      = "https://example.org/book/index.html?highlight=cbor" ∧
    ∀ a ∈ anchors (connectedCallback
        (examplePage "https://example.org/book/index.html?highlight=cbor" "") []).sidebar,
      "active" ∉ a.classList := by
  decide

end Toc
